import Mathlib

/-
  Verification development for the image-labeling tool.

  The repository holds two near-duplicate application variants:
    * `src/App.tsx`            (embedded below under namespace `AppTsx`)
    * `src/unnamed/part_000`   (embedded below under namespace `Part0`)
  The tag-text parsing pipeline and the flattened-export serializer differ
  between the two variants; the session import paths, the spreadsheet
  column resolver and the tag-toggle mutation are textually identical in
  both and are embedded once.

  Modelling conventions:
    * JavaScript values produced by `JSON.parse` are modelled by `JVal`;
      `jsonParse` is an executable model of `JSON.parse` (fuel-based
      recursive descent; numbers are kept as their lexemes, which no claim
      inspects).
    * JS member access `x.f` is modelled by `getFieldE`: it throws
      (`Except.error ()`) on `null` (as in JS) and yields `none`
      ("undefined") on non-objects.
    * String-valued record fields that may be absent are `Option String`;
      `none` models a missing key / `undefined` (which `JSON.stringify`
      drops).  JS truthiness on such values is `jsTruthyS` (absent and
      the empty string are falsy).  Numeric metadata values are modelled
      as strings, which every claim in scope treats opaquely.
    * The entropy used for generated ids (`Date.now()` / `Math.random()`)
      is determinised by a counter; no claim inspects generated ids.
-/

-- ===== JSON value model =====

inductive JVal where
  | jnull : JVal
  | jbool (b : Bool) : JVal
  | jnum (lex : String) : JVal
  | jstr (s : String) : JVal
  | jarr (elems : List JVal) : JVal
  | jobj (fields : List (String × JVal)) : JVal

/-- Structural equality on `JVal`; models the SameValueZero comparison that
JS `Set.has` performs on primitive values. -/
def beqJ : JVal → JVal → Bool
  | .jnull, .jnull => true
  | .jbool a, .jbool b => a == b
  | .jnum a, .jnum b => a == b
  | .jstr a, .jstr b => a == b
  | .jarr xs, .jarr ys => beqJList xs ys
  | .jobj xs, .jobj ys => beqJFields xs ys
  | _, _ => false
where
  beqJList : List JVal → List JVal → Bool
    | [], [] => true
    | x :: xs, y :: ys => beqJ x y && beqJList xs ys
    | _, _ => false
  beqJFields : List (String × JVal) → List (String × JVal) → Bool
    | [], [] => true
    | (k, v) :: xs, (l, w) :: ys => k == l && beqJ v w && beqJFields xs ys
    | _, _ => false

def quoteChar : Char := Char.ofNat 34

def apos : Char := Char.ofNat 39

def lbrace : Char := Char.ofNat 123

def rbrace : Char := Char.ofNat 125

/-- Whitespace skipping of the JSON grammar. -/
def skipWs : List Char → List Char
  | c :: cs => if c = ' ' ∨ c = '\t' ∨ c = '\n' ∨ c = '\r' then skipWs cs else c :: cs
  | [] => []

def isHexChar (c : Char) : Bool :=
  c.isDigit || ('a' ≤ c ∧ c ≤ 'f') || ('A' ≤ c ∧ c ≤ 'F')

/-- Body of a JSON string literal after the opening quote: returns the decoded
string and the input following the closing quote. -/
def parseStrAux : List Char → List Char → Option (String × List Char)
  | [], _ => none
  | c :: cs, acc =>
    if c = quoteChar then some (String.mk acc.reverse, cs)
    else if c = '\\' then
      match cs with
      | [] => none
      | d :: cs2 =>
        if d = quoteChar then parseStrAux cs2 (quoteChar :: acc)
        else if d = '\\' then parseStrAux cs2 ('\\' :: acc)
        else if d = '/' then parseStrAux cs2 ('/' :: acc)
        else if d = 'n' then parseStrAux cs2 ('\n' :: acc)
        else if d = 't' then parseStrAux cs2 ('\t' :: acc)
        else if d = 'r' then parseStrAux cs2 ('\r' :: acc)
        else if d = 'b' then parseStrAux cs2 (Char.ofNat 8 :: acc)
        else if d = 'f' then parseStrAux cs2 (Char.ofNat 12 :: acc)
        else if d = 'u' then
          match cs2 with
          | h1 :: h2 :: h3 :: h4 :: cs3 =>
            if isHexChar h1 ∧ isHexChar h2 ∧ isHexChar h3 ∧ isHexChar h4 then
              let hv : Char → Nat := fun h =>
                if h.isDigit then h.toNat - 48
                else if 'a' ≤ h ∧ h ≤ 'f' then h.toNat - 87 else h.toNat - 55
              parseStrAux cs3 (Char.ofNat (((hv h1 * 16 + hv h2) * 16 + hv h3) * 16 + hv h4) :: acc)
            else none
          | _ => none
        else none
    else parseStrAux cs (c :: acc)

def isNumChar (c : Char) : Bool :=
  c.isDigit || c = '-' || c = '+' || c = '.' || c = 'e' || c = 'E'

mutual

/-- One JSON value (recursive descent, fuel-bounded). -/
def parseVal : Nat → List Char → Option (JVal × List Char)
  | 0, _ => none
  | fuel + 1, cs =>
    match skipWs cs with
    | [] => none
    | c :: rest =>
      if c = 'n' then
        match rest with
        | 'u' :: 'l' :: 'l' :: r => some (.jnull, r)
        | _ => none
      else if c = 't' then
        match rest with
        | 'r' :: 'u' :: 'e' :: r => some (.jbool true, r)
        | _ => none
      else if c = 'f' then
        match rest with
        | 'a' :: 'l' :: 's' :: 'e' :: r => some (.jbool false, r)
        | _ => none
      else if c = quoteChar then
        (parseStrAux rest []).map (fun p => (.jstr p.1, p.2))
      else if c = '[' then
        match skipWs rest with
        | ']' :: r => some (.jarr [], r)
        | r => (parseElems fuel r).map (fun p => (.jarr p.1, p.2))
      else if c = lbrace then
        match skipWs rest with
        | d :: r => if d = rbrace then some (.jobj [], r)
                    else (parseFields fuel (d :: r)).map (fun p => (.jobj p.1, p.2))
        | [] => none
      else if c = '-' ∨ c.isDigit then
        let lexChars := (c :: rest).takeWhile isNumChar
        some (.jnum (String.mk lexChars), (c :: rest).dropWhile isNumChar)
      else none

/-- Comma-separated array elements up to the closing bracket. -/
def parseElems : Nat → List Char → Option (List JVal × List Char)
  | 0, _ => none
  | fuel + 1, cs => do
    let (v, r) ← parseVal fuel cs
    match skipWs r with
    | ',' :: r2 => (parseElems fuel r2).map (fun p => (v :: p.1, p.2))
    | ']' :: r2 => some ([v], r2)
    | _ => none

/-- Comma-separated object members up to the closing brace. -/
def parseFields : Nat → List Char → Option (List (String × JVal) × List Char)
  | 0, _ => none
  | fuel + 1, cs =>
    match skipWs cs with
    | c :: rest =>
      if c = quoteChar then do
        let (k, r) ← parseStrAux rest []
        match skipWs r with
        | ':' :: r2 => do
          let (v, r3) ← parseVal fuel r2
          match skipWs r3 with
          | ',' :: r4 => (parseFields fuel r4).map (fun p => ((k, v) :: p.1, p.2))
          | d :: r4 => if d = rbrace then some ([(k, v)], r4) else none
          | [] => none
        | _ => none
      else none
    | [] => none

end

/-- Model of `JSON.parse`: parse one value, then require only whitespace to
remain (JSON.parse rejects trailing input). -/
def jsonParse (s : String) : Option JVal :=
  match parseVal (2 * s.length + 8) s.toList with
  | some (v, rest) => if skipWs rest = [] then some v else none
  | none => none

-- ===== The sanitization pass =====

/-- Fueled worker for `replaceAll`; the fuel only bounds the recursion
depth (a non-empty pattern consumes at least one character per step), so
`replaceAll` below supplies the input length as fuel. -/
def replaceAllF (pat rep : List Char) : Nat → List Char → List Char
  | 0, s => s
  | fuel + 1, s =>
    match s with
    | [] => []
    | c :: cs =>
      if pat ≠ [] ∧ pat.isPrefixOf (c :: cs) then
        rep ++ replaceAllF pat rep fuel ((c :: cs).drop pat.length)
      else
        c :: replaceAllF pat rep fuel cs

/-- Left-to-right, non-overlapping replacement of every occurrence of `pat`
by `rep`; models `String.prototype.replace` with a global literal regex. -/
def replaceAll (pat rep s : List Char) : List Char :=
  replaceAllF pat rep s.length s

/-- The Python-to-JSON sanitization applied by both variants: single quotes
to double quotes, then the literal substrings None/True/False to their JSON
counterparts, in that order (source: `App.tsx` lines 94-99, `part_000`
lines 90-94). -/
def sanitize (s : String) : String :=
  let s1 := replaceAll [apos] [quoteChar] s.toList
  let s2 := replaceAll "None".toList "null".toList s1
  let s3 := replaceAll "True".toList "true".toList s2
  let s4 := replaceAll "False".toList "false".toList s3
  String.mk s4

-- ===== String utilities (models of the JS string methods used) =====

def isWsChar (c : Char) : Bool :=
  c = ' ' || c = '\t' || c = '\n' || c = '\r'

/-- Model of `String.prototype.trim` (ASCII whitespace). -/
def trimS (s : String) : String :=
  String.mk (((s.toList.dropWhile isWsChar).reverse.dropWhile isWsChar).reverse)

def splitOnCharAux (c : Char) : List Char → List Char → List (List Char)
  | [], acc => [acc.reverse]
  | x :: xs, acc =>
    if x = c then acc.reverse :: splitOnCharAux c xs []
    else splitOnCharAux c xs (x :: acc)

/-- Model of `String.prototype.split` with a one-character separator:
never returns an empty array. -/
def splitOnChar (c : Char) (s : String) : List String :=
  (splitOnCharAux c s.toList []).map String.mk

/-- Model of one ASCII lower-casing step of `toLowerCase`. -/
def lowerChar (c : Char) : Char :=
  if 'A' ≤ c ∧ c ≤ 'Z' then Char.ofNat (c.toNat + 32) else c

/-- Model of `String.prototype.toLowerCase` (ASCII). -/
def toLowerS (s : String) : String :=
  String.mk (s.toList.map lowerChar)

/-- Model of `String.prototype.startsWith`. -/
def startsWithS (s pre : String) : Bool :=
  pre.toList.isPrefixOf s.toList

-- ===== Tag-definition extraction (shared machinery) =====

/-- Field lookup in a parsed JS object; duplicate keys keep the last value,
as `JSON.parse` does. -/
def lookupF (fs : List (String × JVal)) (k : String) : Option JVal :=
  (fs.reverse.find? (fun p => p.1 = k)).map (·.2)

/-- JS member access `v.k` on a parsed value: throws a TypeError on `null`,
yields undefined (`none`) on other non-objects. -/
def getFieldE (v : JVal) (k : String) : Except Unit (Option JVal) :=
  match v with
  | .jnull => .error ()
  | .jobj fs => .ok (lookupF fs k)
  | _ => .ok none

/-- Pure variant of member access used where the receiver is known to be a
non-null value (field reads on a short-point element whose `tag` was truthy,
hence an object). -/
def getFPure (v : JVal) (k : String) : Option JVal :=
  match v with
  | .jobj fs => lookupF fs k
  | _ => none

/-- JS truthiness of a parsed value. -/
def jvTruthy : JVal → Bool
  | .jnull => false
  | .jbool b => b
  | .jnum lex => ¬ (lex = "0" ∨ lex = "-0" ∨ lex = "0.0" ∨ lex = "-0.0")
  | .jstr s => s ≠ ""
  | .jarr _ => true
  | .jobj _ => true

/-- One tag definition as extracted from pasted tag text; fields keep their
parsed values (`sp.title1 || ''` etc. defaults are applied at build time). -/
structure JTagDef where
  tag : JVal
  title1 : JVal
  title2 : JVal
  content : JVal

/-- Models `sp.f || ''`: the field's value when truthy, else the empty
string. -/
def orEmptyF (sp : JVal) (k : String) : JVal :=
  match getFPure sp k with
  | some v => if jvTruthy v then v else .jstr ""
  | none => .jstr ""

/-- The tag definition pushed for a short-point element `sp` with truthy
tag value `tv` (source: `App.tsx` lines 116-121, `part_000` lines 118-123). -/
def mkJDef (sp : JVal) (tv : JVal) : JTagDef :=
  ⟨tv, orEmptyF sp "title1", orEmptyF sp "title2", orEmptyF sp "content"⟩

/-- JS `Set.has` over the seen-tags set (primitive values compare
structurally). -/
def seenHas (seen : List JVal) (tv : JVal) : Bool :=
  seen.any (fun x => beqJ x tv)

/-- One step of the `short_point` walk: `if (sp.tag && !seenTags.has(sp.tag))`
push a definition and mark the tag seen. -/
def pointStep (acc : List JTagDef × List JVal) (sp : JVal) :
    Except Unit (List JTagDef × List JVal) := do
  match (← getFieldE sp "tag") with
  | none => pure acc
  | some tv =>
    if jvTruthy tv && !(seenHas acc.2 tv) then
      pure (acc.1 ++ [mkJDef sp tv], acc.2 ++ [tv])
    else
      pure acc

/-- Walk one `short_point` array (helper `processShortPoints` in `App.tsx`
lines 112-125; inlined loop in `part_000` lines 116-126). -/
def processShortPoints (pts : List JVal) (acc : List JTagDef × List JVal) :
    Except Unit (List JTagDef × List JVal) :=
  pts.foldlM pointStep acc

/-- One step over the items of an array-rooted input:
`if (item.short_point && Array.isArray(item.short_point))` process it
(arrays are always truthy; truthy non-arrays are skipped). -/
def itemStep (acc : List JTagDef × List JVal) (item : JVal) :
    Except Unit (List JTagDef × List JVal) := do
  match (← getFieldE item "short_point") with
  | some (.jarr pts) => processShortPoints pts acc
  | _ => pure acc

/-- Outcome of the tag-text useEffect: extracted definitions, or one of the
error states it reports (the constructors stand for the Chinese UI
messages: malformed input, bad root element, no tags found, extraction
exception), or the cleared state for blank input. -/
inductive TagOutcome where
  | ok (defs : List JTagDef) : TagOutcome
  | malformed : TagOutcome
  | rootErr : TagOutcome
  | noTags : TagOutcome
  | runtime : TagOutcome
  | cleared : TagOutcome

namespace AppTsx

/-- Extraction over the parsed root value, `App.tsx` lines 107-152: arrays
walk every item's `short_point`; non-null objects walk the top-level
`short_point`; other roots report the root-element error.  An exception
thrown during the walk is caught and reported (`runtime`). -/
def extract (data : JVal) : TagOutcome :=
  match data with
  | .jarr items =>
    match items.foldlM itemStep ([], []) with
    | .error _ => .runtime
    | .ok (defs, _) => if defs.isEmpty then .noTags else .ok defs
  | .jobj fs =>
    match (match lookupF fs "short_point" with
           | some (.jarr pts) => processShortPoints pts ([], [])
           | _ => pure ([], [])) with
    | .error _ => .runtime
    | .ok (defs, _) => if defs.isEmpty then .noTags else .ok defs
  | _ => .rootErr

/-- The `App.tsx` parse pipeline, lines 86-105: strict `JSON.parse` first;
only if it fails, sanitize and retry. -/
def parseTagInput (raw : String) : TagOutcome :=
  match jsonParse raw with
  | some data => extract data
  | none =>
    match jsonParse (sanitize raw) with
    | some data => extract data
    | none => .malformed

/-- The whole tag-parse useEffect of `App.tsx` (lines 79-153), including the
blank-input guard that clears the state without parsing. -/
def tagParseEffect (raw : String) : TagOutcome :=
  if trimS raw = "" then .cleared else parseTagInput raw

end AppTsx

namespace Part0

/-- Extraction over the parsed root value, `part_000` lines 104-135: only an
array root is accepted; any other root reports the root-element error. -/
def extract (data : JVal) : TagOutcome :=
  match data with
  | .jarr items =>
    match items.foldlM itemStep ([], []) with
    | .error _ => .runtime
    | .ok (defs, _) => if defs.isEmpty then .noTags else .ok defs
  | _ => .rootErr

/-- The `part_000` parse pipeline, lines 86-102: the sanitization pass is
applied unconditionally before the single `JSON.parse` attempt. -/
def parseTagInput (raw : String) : TagOutcome :=
  match jsonParse (sanitize raw) with
  | some data => extract data
  | none => .malformed

/-- The whole tag-parse useEffect of `part_000` (lines 79-139), including
the blank-input guard. -/
def tagParseEffect (raw : String) : TagOutcome :=
  if trimS raw = "" then .cleared else parseTagInput raw

end Part0

-- ===== Session data model =====

/-- Interface `TagDefinition` (both variants, lines 32-37): `content` is an
optional field. -/
structure TagDefinition where
  tag : String
  title1 : String
  title2 : String
  content : Option String := none
deriving DecidableEq, Repr

/-- Interface `ImageItem` (both variants, lines 39-48).  The string|number
metadata fields are modelled as strings, treated opaquely by all claims. -/
structure ImageItem where
  id : String
  url : String
  filename : String
  tags : List String
  hotelId : Option String := none
  hotelName : Option String := none
  originalImageId : Option String := none
deriving DecidableEq, Repr

/-- JS truthiness of an optional string value (`undefined` and the empty
string are falsy). -/
def jsTruthyS : Option String → Bool
  | none => false
  | some s => ¬ (s = "")

/-- Models `a || b` for an optional string `a` and string default `b`. -/
def jsOrS (a : Option String) (b : String) : String :=
  match a with
  | some s => if s = "" then b else s
  | none => b

/-- Models `a || b` on two optional strings (e.g.
`row["tag name"] || row["tag_name"]`). -/
def jsOrOpt (a b : Option String) : Option String :=
  if jsTruthyS a then a else b

/-- Last segment of `url.split('/')` (`.pop()`); `split` never yields an
empty array, so the result is total. -/
def lastSeg (u : String) : String :=
  (splitOnChar '/' u).getLastD ""

/-- `s.split('?')[0]`: everything before the first question mark. -/
def stripQuery (s : String) : String :=
  (splitOnChar '?' s).headD s

-- ===== LabelingStore mutation =====

/-- `handleToggleTag` (`App.tsx` lines 926-937; `part_000` lines 1061-1070,
identical logic): remove the tag if the matching image has it, append it
otherwise, leave everything else untouched. -/
def handleToggleTag (imageId tag : String) (images : List ImageItem) : List ImageItem :=
  images.map (fun img =>
    if img.id = imageId then
      if tag ∈ img.tags then
        { img with tags := img.tags.filter (fun t => t ≠ tag) }
      else
        { img with tags := img.tags ++ [tag] }
    else img)

-- ===== Session import: flat format =====

/-- One record of the flattened session JSON, as consumed/produced by the
codec.  `none` models an absent key (or a JS `undefined` value, which
`JSON.stringify` drops).  `tag_name` is the `"tag name"` key; `tag_name_alt`
is the alternative `"tag_name"` key honoured by the importer. -/
structure FlatRecord where
  hotel_id : Option String := none
  title1 : Option String := none
  title2 : Option String := none
  tag_name : Option String := none
  tag_name_alt : Option String := none
  image_id : Option String := none
  image_url : Option String := none
  hotel_name : Option String := none
  content : Option String := none
deriving DecidableEq, Repr

/-- Insertion-ordered map membership (`Map.has`). -/
def assocHas {α : Type} (m : List (String × α)) (k : String) : Bool :=
  m.any (fun p => p.1 = k)

/-- Insertion-ordered map lookup (`Map.get`). -/
def assocGet {α : Type} (m : List (String × α)) (k : String) : Option α :=
  (m.find? (fun p => p.1 = k)).map (·.2)

/-- In-place mutation of the entry at key `k` (the importer mutates the
object obtained from `Map.get`). -/
def assocUpd {α : Type} (m : List (String × α)) (k : String) (f : α → α) :
    List (String × α) :=
  m.map (fun p => if p.1 = k then (p.1, f p.2) else p)

/-- The image freshly created for the first record of a URL
(`App.tsx` lines 190-199; `part_000` lines 176-186).  `ctr` determinises
the `Date.now()`/`Math.random()` id entropy. -/
def mkFlatImg (row : FlatRecord) (url : String) (ctr : Nat) : ImageItem :=
  { id := if jsTruthyS row.image_id then "restored-" ++ jsOrS row.image_id ""
          else "img-restored-" ++ toString ctr
    url := url
    filename := jsOrS (some (lastSeg url)) "unknown"
    tags := []
    hotelId := row.hotel_id
    hotelName := row.hotel_name
    originalImageId := row.image_id }

/-- State of the flat-import fold: the URL-keyed image map, the tag-keyed
recovered-definition map, and the id counter. -/
structure FlatState where
  imgs : List (String × ImageItem)
  defs : List (String × TagDefinition)
  ctr : Nat

/-- First half of the flat-import loop body (`App.tsx` lines 189-200):
create the image on the URL's first occurrence (the `Map.has` /
`Map.set` pair). -/
def flatNewImg (st : FlatState) (row : FlatRecord) (url : String) : FlatState :=
  if assocHas st.imgs url then st
  else { st with imgs := st.imgs ++ [(url, mkFlatImg row url st.ctr)],
                 ctr := st.ctr + 1 }

/-- The tag push applied to the grouped image (`App.tsx` lines 206-208):
append the tag name unless the image already carries it. -/
def pushTag (tn : String) (img : ImageItem) : ImageItem :=
  if tn ∈ img.tags then img else { img with tags := img.tags ++ [tn] }

/-- Second half of the flat-import loop body (`App.tsx` lines 202-218):
for a string tag name with non-blank trim, push it onto the grouped image
and recover a definition on the tag's first occurrence. -/
def flatTagUpd (st1 : FlatState) (row : FlatRecord) (url tn : String) :
    FlatState :=
  if trimS tn = "" then st1
  else
    { st1 with
      imgs := assocUpd st1.imgs url (pushTag tn)
      defs :=
        if assocHas st1.defs tn then st1.defs
        else st1.defs ++ [(tn, { tag := tn, title1 := jsOrS row.title1 "",
                                 title2 := jsOrS row.title2 "",
                                 content := some (jsOrS row.content "") })] }

/-- One record of the flat-format import (`App.tsx` lines 185-219;
`part_000` lines 171-205): skip records with a falsy `image_url`; create the
image on the URL's first occurrence; append a distinct non-blank tag name;
recover a tag definition on that tag's first occurrence. -/
def flatStep (st : FlatState) (row : FlatRecord) : FlatState :=
  if jsTruthyS row.image_url then
    match jsOrOpt row.tag_name row.tag_name_alt with
    | some tn =>
      flatTagUpd (flatNewImg st row (jsOrS row.image_url "")) row
        (jsOrS row.image_url "") tn
    | none => flatNewImg st row (jsOrS row.image_url "")
  else st

/-- Flat-format branch of `handleJsonSessionUpload` (identical in both
variants): group records by URL and recover definitions, in record order. -/
def flatImport (rows : List FlatRecord) (ctr0 : Nat) :
    List ImageItem × List TagDefinition :=
  let st := rows.foldl flatStep { imgs := [], defs := [], ctr := ctr0 }
  (st.imgs.map (·.2), st.defs.map (·.2))

/-- Flat-format detection (`App.tsx` line 178): the first record has a
`"tag name"` or `"tag_name"` key. -/
def isFlatFormat (rows : List FlatRecord) : Bool :=
  match rows.head? with
  | some r => r.tag_name.isSome || r.tag_name_alt.isSome
  | none => false

-- ===== Session import: legacy nested format =====

/-- An object-shaped entry of a legacy record's `tags` array.  The format
carries the `tag` key on object entries; absent display fields stay
optional. -/
structure LTagObj where
  tag : String
  title1 : Option String := none
  title2 : Option String := none
  content : Option String := none
deriving DecidableEq, Repr

/-- An entry of a legacy record's embedded `tags` array: a plain string or
a tag object. -/
inductive LTagEntry where
  | strE (s : String) : LTagEntry
  | objE (o : LTagObj) : LTagEntry
deriving DecidableEq, Repr

/-- One record of the legacy nested session JSON. -/
structure LegacyRecord where
  image_url : Option String := none
  image_id : Option String := none
  hotel_id : Option String := none
  hotel_name : Option String := none
  tags : Option (List LTagEntry) := none
deriving DecidableEq, Repr

/-- `typeof t === 'string' ? t : t.tag` over an embedded tag entry. -/
def lTagKey : LTagEntry → String
  | .strE s => s
  | .objE o => o.tag

/-- Legacy branch image reconstruction (`App.tsx` lines 225-233): one image
per record, embedded tags normalised to strings verbatim, rows without a
truthy URL filtered out. -/
def legacyImages (rows : List LegacyRecord) : List ImageItem :=
  ((List.range rows.length).zip rows).map (fun (p : Nat × LegacyRecord) =>
    let idx := p.1
    let item := p.2
    ({ id := (if jsTruthyS item.image_id then "restored-" ++ jsOrS item.image_id ""
               else "img-restored-" ++ toString idx)
       url := jsOrS item.image_url ""
       filename := jsOrS (some (lastSeg (jsOrS item.image_url ""))) "unknown"
       tags := (match item.tags with
                | some l => l.map lTagKey
                | none => [])
       hotelId := item.hotel_id
       hotelName := item.hotel_name
       originalImageId := item.image_id } : ImageItem))
  |>.filter (fun it => it.url ≠ "")

/-- Legacy branch definition recovery (`App.tsx` lines 235-255): scan every
record's embedded tags; object entries donate their display fields, string
entries recover an empty-titled definition; first occurrence wins. -/
def legacyDefs (rows : List LegacyRecord) : List TagDefinition :=
  (rows.foldl (fun acc row =>
      match row.tags with
      | some l =>
        l.foldl (fun (acc : List TagDefinition × List String) t =>
          match t with
          | .objE o =>
            if o.tag ≠ "" ∧ o.tag ∉ acc.2 then
              (acc.1 ++ [{ tag := o.tag, title1 := jsOrS o.title1 "",
                           title2 := jsOrS o.title2 "",
                           content := some (jsOrS o.content "") }], acc.2 ++ [o.tag])
            else acc
          | .strE s =>
            if s ∉ acc.2 then
              (acc.1 ++ [{ tag := s, title1 := "", title2 := "", content := none }],
               acc.2 ++ [s])
            else acc) acc
      | none => acc) ([], [])).1

/-- Legacy branch of `handleJsonSessionUpload`, images and recovered
definitions together. -/
def legacyImport (rows : List LegacyRecord) :
    List ImageItem × List TagDefinition :=
  (legacyImages rows, legacyDefs rows)

-- ===== Spreadsheet ingestion =====

/-- One decoded spreadsheet row: column name to cell value, in column
order (cell values as their string coercions). -/
def Row : Type := List (String × String)

/-- `row[k]`, coerced as the code coerces it (`String(row[k])` on the URL
column; absent keys behave as falsy). -/
def rGet (row : Row) (k : String) : String :=
  jsOrS (assocGet row k) ""

/-- One column-name pattern of the heuristics: an anchored
(`/^name$/i`) or substring (`/name/i`) case-insensitive match. -/
inductive Pat where
  | exactP (s : String) : Pat
  | containsP (s : String) : Pat

/-- Case-insensitive substring test on lower-cased needles. -/
def containsSub (hay needle : String) : Bool :=
  let h := (toLowerS hay).toList
  let n := needle.toList
  (List.range (h.length + 1)).any (fun i => n.isPrefixOf (h.drop i))

def patMatch : Pat → String → Bool
  | .exactP s, k => toLowerS k = s
  | .containsP s, k => containsSub k s

/-- `findKey` (`App.tsx` lines 300-301): the first column name, in header
order, matching any pattern of the list. -/
def findKey (keys : List String) (pats : List Pat) : Option String :=
  keys.find? (fun k => pats.any (fun p => patMatch p k))

def urlPats : List Pat :=
  [.exactP "image_url", .exactP "url", .exactP "link", .exactP "src",
   .containsP "link", .containsP "url"]

def hotelIdPats : List Pat :=
  [.exactP "hotel_id", .exactP "hotelid", .exactP "hotel", .containsP "hotel_id"]

def hotelNamePats : List Pat :=
  [.exactP "hotel_name", .exactP "hotelname", .exactP "name", .exactP "hotel name"]

def imageIdPats : List Pat :=
  [.exactP "image_id", .exactP "imageid", .exactP "id", .containsP "image_id"]

inductive UploadErr where
  | emptySheet : UploadErr
  | noUrlColumn : UploadErr
  | noRows : UploadErr
deriving DecidableEq, Repr

/-- The effective URL column: the header heuristic, else the first column
whose first-row value starts with `http` (`App.tsx` line 314). -/
def effectiveUrlKey (keys : List String) (firstRow : Row) : Option String :=
  match findKey keys urlPats with
  | some k => some k
  | none => keys.find? (fun k => startsWithS (rGet firstRow k) "http")

/-- `handleExcelUpload` core (`App.tsx` lines 291-342, `part_000` lines
277-328, identical): column inference over the first row's keys, the URL
fallback sniff, row filtering and `ImageItem` construction.  The
`Date.now()` id component is determinised away. -/
def handleExcelUpload (rows : List Row) : Except UploadErr (List ImageItem) :=
  match rows with
  | [] => .error .emptySheet
  | firstRow :: _ =>
    let keys := firstRow.map (·.1)
    let urlKey := findKey keys urlPats
    let hotelIdKey := findKey keys hotelIdPats
    let hotelNameKey := findKey keys hotelNamePats
    let imageIdKey := findKey keys imageIdPats
    if urlKey = none ∧ ¬ keys.any (fun k => startsWithS (rGet firstRow k) "http") then
      .error .noUrlColumn
    else
      match effectiveUrlKey keys firstRow with
      | none => .error .noUrlColumn
      | some ek =>
        let kept := rows.filter (fun row => rGet row ek ≠ "")
        let parsedItems := ((List.range kept.length).zip kept).map (fun (p : Nat × Row) =>
          let idx := p.1
          let row := p.2
          let url := trimS (rGet row ek)
          let filename := jsOrS (some (stripQuery (lastSeg url)))
                               ("image-" ++ toString idx ++ ".jpg")
          ({ id := "img-xlsx-" ++ toString idx
             url := url
             filename := filename
             tags := []
             hotelId := hotelIdKey.bind (fun k => assocGet row k)
             hotelName := hotelNameKey.bind (fun k => assocGet row k)
             originalImageId := imageIdKey.bind (fun k => assocGet row k) } : ImageItem))
        if parsedItems.isEmpty then .error .noRows else .ok parsedItems

-- ===== Flattened export =====

namespace AppTsx

/-- The `tagLookup` map of `App.tsx` `handleExport` (lines 944-945), built
by repeated `Map.set`: later definitions with the same tag overwrite
earlier ones. -/
def buildLookup (ds : List TagDefinition) : List (String × TagDefinition) :=
  ds.foldl (fun m d =>
    if assocHas m d.tag then assocUpd m d.tag (fun _ => d)
    else m ++ [(d.tag, d)]) []

def lookupTag (ds : List TagDefinition) (t : String) : Option TagDefinition :=
  assocGet (buildLookup ds) t

/-- `def?.title1 || ""` as emitted by the `App.tsx` exporter. -/
def exportedTitle1 (ds : List TagDefinition) (t : String) : String :=
  jsOrS ((lookupTag ds t).map (·.title1)) ""

def exportedTitle2 (ds : List TagDefinition) (t : String) : String :=
  jsOrS ((lookupTag ds t).map (·.title2)) ""

def exportedContent (ds : List TagDefinition) (t : String) : String :=
  jsOrS ((lookupTag ds t).bind (·.content)) ""

/-- The records emitted for one image by `App.tsx` `handleExport`
(lines 947-975): one blank-tag record for an untagged image, one record per
tag otherwise; keys image_id, image_url, hotel_id, hotel_name, "tag name",
title1, title2, content. -/
def exportChunk (ds : List TagDefinition) (img : ImageItem) : List FlatRecord :=
  if img.tags.isEmpty then
    [{ image_id := img.originalImageId, image_url := some img.url,
       hotel_id := img.hotelId, hotel_name := img.hotelName,
       tag_name := some "", title1 := some "", title2 := some "",
       content := some "" }]
  else
    img.tags.map (fun t =>
      { image_id := img.originalImageId, image_url := some img.url,
        hotel_id := img.hotelId, hotel_name := img.hotelName,
        tag_name := some t, title1 := some (exportedTitle1 ds t),
        title2 := some (exportedTitle2 ds t),
        content := some (exportedContent ds t) })

/-- `handleExport` of `App.tsx` (lines 939-975), data construction only. -/
def handleExport (images : List ImageItem) (tagDefs : List TagDefinition) :
    List FlatRecord :=
  (images.map (exportChunk tagDefs)).flatten

end AppTsx

namespace Part0

/-- The records emitted for one image by `part_000` `handleExport`
(lines 1080-1105): schema hotel_id, title1, title2, "tag name", image_id,
image_url; `hotel_id` defaults to the empty string, `image_id` falls back
from `originalImageId` to the internal id, titles come from
`tagDefs.find(d => d.tag === tagStr)`; no content or hotel_name key. -/
def exportChunk (ds : List TagDefinition) (img : ImageItem) : List FlatRecord :=
  if img.tags.isEmpty then
    [{ hotel_id := some (jsOrS img.hotelId ""), title1 := some "",
       title2 := some "", tag_name := some "",
       image_id := some (jsOrS img.originalImageId img.id),
       image_url := some img.url }]
  else
    img.tags.map (fun t =>
      let d := ds.find? (fun d => d.tag = t)
      { hotel_id := some (jsOrS img.hotelId ""),
        title1 := some (jsOrS (d.map (·.title1)) ""),
        title2 := some (jsOrS (d.map (·.title2)) ""),
        tag_name := some t,
        image_id := some (jsOrS img.originalImageId img.id),
        image_url := some img.url })

/-- `handleExport` of `part_000` (lines 1072-1105), data construction
only. -/
def handleExport (images : List ImageItem) (tagDefs : List TagDefinition) :
    List FlatRecord :=
  (images.map (exportChunk tagDefs)).flatten

end Part0

-- ===== Specification-side definitions for the extraction claims =====

def isNullJ : JVal → Bool
  | .jnull => true
  | _ => false

/-- A primitive parsed value.  JS `Set.has` compares objects and arrays by
reference, primitives by value; the structural model `seenHas` agrees with
JS exactly on primitive tag values, which is the domain the tag format
uses. -/
def primJ : JVal → Bool
  | .jarr _ => false
  | .jobj _ => false
  | _ => true

/-- The `short_point` elements contributed by one item of an array-rooted
input (empty for items without a `short_point` array). -/
def pointsOf (item : JVal) : List JVal :=
  match item with
  | .jobj fs =>
    match lookupF fs "short_point" with
    | some (.jarr pts) => pts
    | _ => []
  | _ => []

/-- All short-point elements of an array-rooted input, in traversal
order. -/
def allPoints (items : List JVal) : List JVal :=
  (items.map pointsOf).flatten

/-- Whether walking an array-rooted input hits a TypeError (a `null` item,
or a `null` short-point element). -/
def itemsThrow (items : List JVal) : Bool :=
  items.any (fun it => isNullJ it || (pointsOf it).any isNullJ)

/-- Total (no-throw) version of `pointStep`. -/
def purePointStep (acc : List JTagDef × List JVal) (sp : JVal) :
    List JTagDef × List JVal :=
  match getFPure sp "tag" with
  | none => acc
  | some tv =>
    if jvTruthy tv && !(seenHas acc.2 tv) then
      (acc.1 ++ [mkJDef sp tv], acc.2 ++ [tv])
    else acc

/-- Total seen-set fold over a list of short-point elements. -/
def pureFold (pts : List JVal) (acc : List JTagDef × List JVal) :
    List JTagDef × List JVal :=
  pts.foldl purePointStep acc

/-- Every eligible occurrence (truthy `tag` field) in traversal order, one
candidate definition per occurrence, duplicates included. -/
def pureElig (pts : List JVal) : List JTagDef :=
  pts.filterMap (fun sp =>
    match getFPure sp "tag" with
    | some tv => if jvTruthy tv then some (mkJDef sp tv) else none
    | none => none)

def tagsOf (ds : List JTagDef) : List JVal :=
  ds.map (·.tag)

/-- Append a candidate definition unless its tag was already taken. -/
def addNew (ds : List JTagDef) (e : JTagDef) : List JTagDef :=
  if seenHas (tagsOf ds) e.tag then ds else ds ++ [e]

def addAllNew (ds : List JTagDef) (es : List JTagDef) : List JTagDef :=
  es.foldl addNew ds

/-- The claim's reading of deduplication, stated independently of the
seen-set algorithm: keep each list head and drop every later candidate
with the same tag.  First-seen order and first-seen field values are
manifest. -/
def keepFirstByTag (es : List JTagDef) : List JTagDef :=
  match es with
  | [] => []
  | d :: rest => d :: keepFirstByTag (rest.filter (fun e => !(beqJ d.tag e.tag)))
termination_by es.length
decreasing_by
  simp only [List.length_cons]
  exact Nat.lt_succ_of_le (List.length_filter_le _ _)

/-- The eligible candidate list of a root value accepted by the `App.tsx`
extraction (`none` when the root is rejected or the walk throws). -/
def eligibleOf (data : JVal) : Option (List JTagDef) :=
  match data with
  | .jarr items => if itemsThrow items then none else some (pureElig (allPoints items))
  | .jobj fs =>
    match lookupF fs "short_point" with
    | some (.jarr pts) => if pts.any isNullJ then none else some (pureElig pts)
    | _ => some []
  | _ => none

-- ===== Specification-side definitions for the remaining claims =====

/-- The claim's reading of column inference: try the role's patterns in
priority order, each over the whole header list, and take the first column
some pattern matches (so exact-name patterns beat substring patterns). -/
def specPriorityFindKey (keys : List String) (pats : List Pat) : Option String :=
  match pats with
  | [] => none
  | p :: ps =>
    match keys.find? (patMatch p) with
    | some k => some k
    | none => specPriorityFindKey keys ps

/-- The claim's reading of `filename`: the last path segment of the trimmed
url with any query string stripped. -/
def specFilename (u : String) : String :=
  stripQuery (lastSeg (trimS u))

/-- The claim's per-image contract for `toggleTag`: untouched unless the id
matches; tag removed (order of the rest preserved) when present, appended
when absent; all other fields unchanged. -/
def toggleSpec (imageId tag : String) (img out : ImageItem) : Prop :=
  (img.id ≠ imageId → out = img)
  ∧ (img.id = imageId →
      out.id = img.id ∧ out.url = img.url ∧ out.filename = img.filename
      ∧ out.hotelId = img.hotelId ∧ out.hotelName = img.hotelName
      ∧ out.originalImageId = img.originalImageId
      ∧ (tag ∈ img.tags →
          out.tags = img.tags.filter (fun t => t ≠ tag)
          ∧ out.tags.Sublist img.tags
          ∧ tag ∉ out.tags
          ∧ (img.tags.Nodup → out.tags = img.tags.erase tag))
      ∧ (tag ∉ img.tags → out.tags = img.tags ++ [tag]))

-- ===== Concrete inputs for counterexamples and witnesses =====

/-- A Python-style paste whose `content` value contains the word None
inside quoted text. -/
def c10Input : String :=
  "[\x7b\x27short_point\x27: [\x7b\x27tag\x27: \x27A\x27, \x27content\x27: \x27None at all\x27\x7d]\x7d]"

/-- A well-formed JSON input whose tag value is the literal word True. -/
def c3Input : String :=
  "[\x7b\"short_point\": [\x7b\"tag\": \"True\"\x7d]\x7d]"

/-- The parsed value of `c3Input`. -/
def c3Val : JVal :=
  .jarr [.jobj [("short_point", .jarr [.jobj [("tag", .jstr "True")]])]]

/-- A well-formed JSON input in shape (b): a single object with a
top-level `short_point` array. -/
def c6Input : String :=
  "\x7b\"short_point\": [\x7b\"tag\": \"A\"\x7d], \"long_point\": null\x7d"

/-- An array-rooted input with a duplicate tag across two `short_point`
arrays, used to witness first-wins deduplication. -/
def c5Data : JVal :=
  .jarr [.jobj [("short_point", .jarr [.jobj [("tag", .jstr "A"), ("title1", .jstr "X")]])],
         .jobj [("short_point", .jarr [.jobj [("tag", .jstr "B")],
                                       .jobj [("tag", .jstr "A"), ("title1", .jstr "Y")]])]]

/-- The parsed value of `c6Input`. -/
def c6Val : JVal :=
  .jobj [("short_point", .jarr [.jobj [("tag", .jstr "A")]]), ("long_point", .jnull)]

/-- A tagged image used by concrete witnesses. -/
def imgW1 : ImageItem :=
  { id := "i1", url := "http://h/a.jpg", filename := "a.jpg", tags := ["A", "B"],
    hotelId := some "7", hotelName := some "H", originalImageId := some "900" }

/-- An untagged image used by concrete witnesses. -/
def imgW2 : ImageItem :=
  { id := "i2", url := "http://h/b.jpg", filename := "b.jpg", tags := [],
    hotelId := some "7", hotelName := some "H", originalImageId := none }

/-- Tag definitions used by concrete witnesses. -/
def defsW : List TagDefinition :=
  [{ tag := "A", title1 := "T1A", title2 := "T2A", content := some "CA" },
   { tag := "B", title1 := "T1B", title2 := "T2B", content := some "CB" }]

/-- A legacy record whose embedded tag list repeats the same tag. -/
def legacyDupRow : LegacyRecord :=
  { image_url := some "http://x/a.jpg", tags := some [.strE "A", .strE "A"] }

/-- A flat record whose image URL carries a query string. -/
def flatQueryRow : FlatRecord :=
  { image_url := some "http://h/a.jpg?x=1", tag_name := some "" }

/-- A spreadsheet whose first header matches a substring url pattern while
a later header matches an anchored url pattern. -/
def rowsPriority : List Row :=
  [[("hotellink", "x"), ("url", "http://a/b.jpg")]]

/-- The spreadsheet of the claim's concrete column-inference example. -/
def rowsExample : List Row :=
  [[("Image Link", "http://h/a.jpg"), ("HotelID", "7"), ("Name", "H")]]

-- ===== Theorems =====

-- Claim C10

/-- Claim C10: the sanitization pass rewrites None/True/False as raw
substrings, inside quoted content too; on `c10Input` (which fails strict
parsing and reaches the sanitized path) the parsed definition's content is
"null at all", not the "None at all" written in the source text. -/
theorem c10_sanitize_corrupts_content :
    jsonParse c10Input = none
    ∧ AppTsx.parseTagInput c10Input =
        .ok [⟨.jstr "A", .jstr "", .jstr "", .jstr "null at all"⟩]
    ∧ sanitize "[\"None\"]" = "[\"null\"]"
    ∧ JVal.jstr "null at all" ≠ JVal.jstr "None at all" := by
  refine ⟨?_, ?_, ?_, ?_⟩
  · exact rfl
  · exact rfl
  · exact rfl
  · intro h
    injection h with h2
    exact absurd h2 (by decide)

-- Claim C3

/-- Claim C3 (amended, App.tsx variant): strict JSON parsing is attempted
on the unmodified input first, so whenever the raw input is valid JSON the
pipeline's outcome is the extraction of that strict parse and the
sanitization pass never influences the result. -/
theorem c3_strict_first (raw : String) (d : JVal)
    (h : jsonParse raw = some d) :
    AppTsx.parseTagInput raw = AppTsx.extract d := by
  unfold AppTsx.parseTagInput
  rw [h]

/-- Witness for `c3_strict_first` at the concrete valid-JSON input
`c3Input`. -/
theorem c3_strict_first_witness :
    jsonParse c3Input = some c3Val
    ∧ AppTsx.parseTagInput c3Input = AppTsx.extract c3Val :=
  ⟨rfl, c3_strict_first c3Input c3Val rfl⟩

/-- Claim C3 counterexample: `c3Input` is already valid JSON, yet the
part_000 variant still applies the sanitization pass before its single
parse attempt, so the textual substitution changes the extracted tag from
"True" to "true". -/
theorem c3_sanitize_first_counterexample :
    jsonParse c3Input = some c3Val
    ∧ Part0.extract c3Val = .ok [⟨.jstr "True", .jstr "", .jstr "", .jstr ""⟩]
    ∧ Part0.parseTagInput c3Input = .ok [⟨.jstr "true", .jstr "", .jstr "", .jstr ""⟩]
    ∧ Part0.parseTagInput c3Input ≠ Part0.extract c3Val := by
  refine ⟨?_, ?_, ?_, ?_⟩
  · exact rfl
  · exact rfl
  · exact rfl
  rw [show Part0.parseTagInput c3Input
        = .ok [⟨.jstr "true", .jstr "", .jstr "", .jstr ""⟩] from rfl,
      show Part0.extract c3Val
        = .ok [⟨.jstr "True", .jstr "", .jstr "", .jstr ""⟩] from rfl]
  · intro h
    simp only [TagOutcome.ok.injEq, List.cons.injEq, JTagDef.mk.injEq,
      JVal.jstr.injEq] at h
    exact absurd h.1.1 (by decide)

-- Claim C6

/-- Claim C6 (amended): the App.tsx variant accepts shape (b) — an input
whose parsed root is a single non-array object carrying a `short_point`
array: when walking that array succeeds and yields at least one
definition, extraction returns those definitions rather than a
root-element error.  The part_000 variant instead reports the root-element
error for every non-array root. -/
theorem c6_object_root :
    (∀ (fs : List (String × JVal)) (pts : List JVal)
        (out : List JTagDef × List JVal),
        lookupF fs "short_point" = some (.jarr pts) →
        processShortPoints pts ([], []) = .ok out →
        out.1 ≠ [] →
        AppTsx.extract (.jobj fs) = .ok out.1)
    ∧ (∀ v : JVal, (∀ items, v ≠ .jarr items) → Part0.extract v = .rootErr) := by
  constructor
  · intro fs pts out hsp hproc hne
    obtain ⟨defs, seen⟩ := out
    simp only at hne
    simp only [AppTsx.extract, hsp, hproc]
    rw [if_neg (by simpa [List.isEmpty_iff] using hne)]
  · intro v hv
    cases v with
    | jarr items => exact absurd rfl (hv items)
    | jnull => rfl
    | jbool b => rfl
    | jnum l => rfl
    | jstr s => rfl
    | jobj fs => rfl

/-- Witness for `c6_object_root` at the concrete shape-(b) value
`c6Val`. -/
theorem c6_object_root_witness :
    AppTsx.extract c6Val = .ok [⟨.jstr "A", .jstr "", .jstr "", .jstr ""⟩]
    ∧ Part0.extract (.jstr "oops") = .rootErr :=
  ⟨c6_object_root.1 [("short_point", .jarr [.jobj [("tag", .jstr "A")]]),
                     ("long_point", .jnull)]
      [.jobj [("tag", .jstr "A")]]
      ([⟨.jstr "A", .jstr "", .jstr "", .jstr ""⟩], [.jstr "A"])
      rfl rfl (List.cons_ne_nil _ _),
   c6_object_root.2 (.jstr "oops") (fun _ h => JVal.noConfusion h)⟩

/-- Claim C6 counterexample: on the concrete shape-(b) input `c6Input`
(valid JSON, object root, one truthy tag), the part_000 variant fails with
the root-element error while the App.tsx variant succeeds. -/
theorem c6_rootErr_counterexample :
    jsonParse c6Input = some c6Val
    ∧ Part0.parseTagInput c6Input = .rootErr
    ∧ AppTsx.parseTagInput c6Input =
        .ok [⟨.jstr "A", .jstr "", .jstr "", .jstr ""⟩] :=
  ⟨rfl, rfl, rfl⟩

-- Claim C4

/-- Claim C4: `toggleTag` removes the tag (preserving the order of the
remaining tags) when the addressed image has it, appends it at the end
otherwise, leaves every other field and every other image untouched, and
is a no-op when no image carries the id. -/
theorem c4_toggle_tag (images : List ImageItem) (imageId tag : String) :
    ((∀ img ∈ images, img.id ≠ imageId) →
        handleToggleTag imageId tag images = images)
    ∧ (handleToggleTag imageId tag images).length = images.length
    ∧ ∀ i (h1 : i < images.length)
        (h2 : i < (handleToggleTag imageId tag images).length),
        toggleSpec imageId tag (images.get ⟨i, h1⟩)
          ((handleToggleTag imageId tag images).get ⟨i, h2⟩) := by
  refine ⟨?_, ?_, ?_⟩
  · intro h
    conv_rhs => rw [← List.map_id images]
    apply List.map_congr_left
    intro img hmem
    simp [handleToggleTag, if_neg (h img hmem)]
  · simp [handleToggleTag]
  · intro i h1 h2
    have hout : (handleToggleTag imageId tag images).get ⟨i, h2⟩
        = (if (images.get ⟨i, h1⟩).id = imageId then
             if tag ∈ (images.get ⟨i, h1⟩).tags then
               { images.get ⟨i, h1⟩ with
                 tags := (images.get ⟨i, h1⟩).tags.filter (fun t => t ≠ tag) }
             else
               { images.get ⟨i, h1⟩ with
                 tags := (images.get ⟨i, h1⟩).tags ++ [tag] }
           else images.get ⟨i, h1⟩) :=
      List.get_map _
    set img := images.get ⟨i, h1⟩ with himg
    unfold toggleSpec
    constructor
    · intro hne
      rw [hout, if_neg hne]
    · intro heq
      rw [hout, if_pos heq]
      by_cases htag : tag ∈ img.tags
      · rw [if_pos htag]
        refine ⟨rfl, rfl, rfl, rfl, rfl, rfl, ?_, ?_⟩
        · intro _
          refine ⟨rfl, List.filter_sublist _, ?_, ?_⟩
          · intro hmem
            have := List.of_mem_filter hmem
            simp at this
          · intro hnd
            rw [List.Nodup.erase_eq_filter hnd]
            apply List.filter_congr
            intro x _
            by_cases hx : x = tag <;> simp [hx]
        · intro habs
          exact absurd htag habs
      · rw [if_neg htag]
        refine ⟨rfl, rfl, rfl, rfl, rfl, rfl, ?_, fun _ => rfl⟩
        intro habs
        exact absurd habs htag

/-- Witness for `c4_toggle_tag`: the unknown-id no-op and the removal of an
existing tag, at concrete inputs. -/
theorem c4_toggle_tag_witness :
    handleToggleTag "zz" "A" [imgW1] = [imgW1]
    ∧ toggleSpec "i1" "A" imgW1
        ((handleToggleTag "i1" "A" [imgW1]).get ⟨0, by decide⟩) := by
  constructor
  · exact (c4_toggle_tag [imgW1] "zz" "A").1 (by decide)
  · exact (c4_toggle_tag [imgW1] "i1" "A").2.2 0 (by decide) (by decide)

-- Shared helper lemmas

/-- `(some s) || d` keeps a non-empty `s`. -/
theorem jsOrS_some_ne {s : String} (h : s ≠ "") (d : String) :
    jsOrS (some s) d = s := by
  show (if s = "" then d else s) = s
  rw [if_neg h]

/-- `(some s) || ""` is `s` whether or not `s` is empty. -/
theorem jsOrS_some_empty (s : String) : jsOrS (some s) "" = s := by
  unfold jsOrS
  by_cases h : s = "" <;> simp [h]

/-- A string with a non-blank trim is non-empty. -/
theorem ne_empty_of_trim_ne {s : String} (h : trimS s ≠ "") : s ≠ "" := by
  intro hs
  subst hs
  exact h rfl

-- Claim C5: helper lemmas

/-- Reduction of an `Except` bind on a success value. -/
theorem exceptBind_ok {α β : Type} (x : α) (f : α → Except Unit β) :
    (Except.ok x >>= f) = f x := rfl

/-- Reduction of an `Except` bind on a thrown error. -/
theorem exceptBind_err {α β : Type} (f : α → Except Unit β) :
    ((Except.error () : Except Unit α) >>= f) = Except.error () := rfl

/-- On a non-null element, the seen-set step never throws and agrees with
its total version. -/
theorem pointStep_ok (acc : List JTagDef × List JVal) (sp : JVal)
    (h : isNullJ sp = false) :
    pointStep acc sp = .ok (purePointStep acc sp) := by
  cases sp with
  | jnull => simp [isNullJ] at h
  | jobj fs =>
    cases hf : lookupF fs "tag" with
    | none =>
      simp only [pointStep, purePointStep, getFieldE, getFPure, hf,
        exceptBind_ok]
      rfl
    | some tv =>
      simp only [pointStep, purePointStep, getFieldE, getFPure, hf,
        exceptBind_ok]
      split <;> rfl
  | jbool b => rfl
  | jnum l => rfl
  | jstr t => rfl
  | jarr xs => rfl

/-- The seen-set walk of one `short_point` array: throws exactly when a
null element occurs, and otherwise equals the total fold. -/
theorem processShortPoints_spec (pts : List JVal) :
    ∀ acc, processShortPoints pts acc =
      if pts.any isNullJ then .error () else .ok (pureFold pts acc) := by
  induction pts with
  | nil => intro acc; rfl
  | cons sp rest ih =>
    intro acc
    by_cases hn : isNullJ sp
    · have hsp : sp = .jnull := by cases sp <;> simp [isNullJ] at hn ⊢
      subst hsp
      rfl
    · have hn' : isNullJ sp = false := by simpa using hn
      rw [processShortPoints, List.foldlM_cons, pointStep_ok _ _ hn',
        exceptBind_ok]
      rw [show (rest.foldlM pointStep (purePointStep acc sp))
            = processShortPoints rest (purePointStep acc sp) from rfl, ih]
      simp [List.any_cons, hn', pureFold, List.foldl_cons]

/-- On a non-null item, the item step is the walk of that item's
points. -/
theorem itemStep_ok (acc : List JTagDef × List JVal) (item : JVal)
    (h : isNullJ item = false) :
    itemStep acc item = processShortPoints (pointsOf item) acc := by
  cases item with
  | jnull => simp [isNullJ] at h
  | jobj fs =>
    cases hf : lookupF fs "short_point" with
    | none => simp only [itemStep, pointsOf, getFieldE, hf]; rfl
    | some v =>
      cases v <;> simp only [itemStep, pointsOf, getFieldE, hf] <;> rfl
  | jbool b => rfl
  | jnum l => rfl
  | jstr t => rfl
  | jarr xs => rfl

/-- The full array walk: throws exactly when `itemsThrow`, and otherwise
equals the total fold over all points. -/
theorem foldItems_spec (items : List JVal) :
    ∀ acc, items.foldlM itemStep acc =
      if itemsThrow items then .error ()
      else .ok (pureFold (allPoints items) acc) := by
  induction items with
  | nil => intro acc; rfl
  | cons it rest ih =>
    intro acc
    by_cases hn : isNullJ it
    · have hit : it = .jnull := by cases it <;> simp [isNullJ] at hn ⊢
      subst hit
      rfl
    · have hn' : isNullJ it = false := by simpa using hn
      rw [List.foldlM_cons, itemStep_ok _ _ hn', processShortPoints_spec]
      by_cases hp : (pointsOf it).any isNullJ
      · rw [if_pos hp, exceptBind_err]
        rw [if_pos (show itemsThrow (it :: rest) = true by
              simp [itemsThrow, List.any_cons, hp])]
      · have hp' : (pointsOf it).any isNullJ = false := by simpa using hp
        rw [if_neg (by simp [hp']), exceptBind_ok, ih]
        have hthrow : itemsThrow (it :: rest) = itemsThrow rest := by
          simp [itemsThrow, List.any_cons, hn', hp']
        rw [hthrow]
        by_cases ht : itemsThrow rest
        · simp [ht]
        · simp only [ht, if_false]
          congr 1
          simp [allPoints, pureFold, List.foldl_append]

/-- The total seen-set fold is `addAllNew` over the eligible candidate
list, provided the seen set lists exactly the accumulated tags. -/
theorem pureFold_addAll (pts : List JVal) :
    ∀ ds, pureFold pts (ds, tagsOf ds)
      = (addAllNew ds (pureElig pts), tagsOf (addAllNew ds (pureElig pts))) := by
  induction pts with
  | nil => intro ds; simp [pureFold, pureElig, addAllNew]
  | cons sp rest ih =>
    intro ds
    rw [show pureFold (sp :: rest) (ds, tagsOf ds)
          = pureFold rest (purePointStep (ds, tagsOf ds) sp) from rfl]
    cases htv : getFPure sp "tag" with
    | none =>
      rw [show purePointStep (ds, tagsOf ds) sp = (ds, tagsOf ds) from by
            simp [purePointStep, htv]]
      rw [show pureElig (sp :: rest) = pureElig rest from by
            simp [pureElig, htv]]
      exact ih ds
    | some tv =>
      by_cases htr : jvTruthy tv
      · have helig : pureElig (sp :: rest) = mkJDef sp tv :: pureElig rest := by
          simp [pureElig, htv, htr]
        rw [helig]
        rw [show addAllNew ds (mkJDef sp tv :: pureElig rest)
              = addAllNew (addNew ds (mkJDef sp tv)) (pureElig rest) from rfl]
        by_cases hseen : seenHas (tagsOf ds) tv
        · rw [show purePointStep (ds, tagsOf ds) sp = (ds, tagsOf ds) from by
                simp [purePointStep, htv, htr, hseen]]
          rw [show addNew ds (mkJDef sp tv) = ds from by
                simp [addNew, mkJDef, hseen]]
          exact ih ds
        · have hseen' : seenHas (tagsOf ds) tv = false := by simpa using hseen
          have hseen2 : seenHas (ds.map (fun x => x.tag)) tv = false := hseen'
          rw [show purePointStep (ds, tagsOf ds) sp
                = (ds ++ [mkJDef sp tv], tagsOf (ds ++ [mkJDef sp tv])) from by
                simp [purePointStep, htv, htr, hseen', hseen2, tagsOf, mkJDef]]
          rw [show addNew ds (mkJDef sp tv) = ds ++ [mkJDef sp tv] from by
                simp [addNew, mkJDef, hseen']]
          exact ih (ds ++ [mkJDef sp tv])
      · have htr' : jvTruthy tv = false := by simpa using htr
        rw [show purePointStep (ds, tagsOf ds) sp = (ds, tagsOf ds) from by
              simp [purePointStep, htv, htr']]
        rw [show pureElig (sp :: rest) = pureElig rest from by
              simp [pureElig, htv, htr']]
        exact ih ds

/-- Membership of the tail seen set splits off the freshly appended
tag. -/
theorem seenHas_append (l : List JVal) (a tv : JVal) :
    seenHas (l ++ [a]) tv = (seenHas l tv || beqJ a tv) := by
  simp [seenHas, List.any_append]

/-- The seen-set accumulation over candidates equals dropping every
candidate whose tag is already taken, then deduplicating the rest by
first occurrence. -/
theorem addAllNew_keepFirst (es : List JTagDef) :
    ∀ ds, addAllNew ds es
      = ds ++ keepFirstByTag (es.filter (fun e => !(seenHas (tagsOf ds) e.tag))) := by
  induction es with
  | nil => intro ds; simp [addAllNew, keepFirstByTag]
  | cons e rest ih =>
    intro ds
    rw [show addAllNew ds (e :: rest) = addAllNew (addNew ds e) rest from rfl]
    by_cases hseen : seenHas (tagsOf ds) e.tag
    · rw [show addNew ds e = ds from by simp [addNew, hseen]]
      rw [ih ds]
      congr 2
      simp [List.filter_cons, hseen]
    · have hseen' : seenHas (tagsOf ds) e.tag = false := by simpa using hseen
      rw [show addNew ds e = ds ++ [e] from by simp [addNew, hseen']]
      rw [ih (ds ++ [e])]
      rw [show (e :: rest).filter (fun x => !(seenHas (tagsOf ds) x.tag))
            = e :: rest.filter (fun x => !(seenHas (tagsOf ds) x.tag)) from by
            simp [List.filter_cons, hseen']]
      rw [keepFirstByTag]
      rw [List.append_assoc, List.singleton_append]
      congr 2
      rw [List.filter_filter]
      congr 1
      apply List.filter_congr
      intro x _
      have htg : tagsOf (ds ++ [e]) = tagsOf ds ++ [e.tag] := by simp [tagsOf]
      rw [htg, seenHas_append]
      cases seenHas (tagsOf ds) x.tag <;> cases beqJ e.tag x.tag <;> rfl

/-- Every element kept by the deduplication comes from the candidate
list. -/
theorem keepFirst_subset_aux :
    ∀ (n : Nat) (l : List JTagDef), l.length ≤ n →
      ∀ e ∈ keepFirstByTag l, e ∈ l := by
  intro n
  induction n with
  | zero =>
    intro l hl e he
    have : l = [] := List.eq_nil_of_length_eq_zero (Nat.le_zero.mp hl)
    subst this
    simp [keepFirstByTag] at he
  | succ n ih =>
    intro l hl e he
    cases l with
    | nil => simp [keepFirstByTag] at he
    | cons d rest =>
      rw [keepFirstByTag] at he
      rcases List.mem_cons.mp he with h1 | h2
      · exact h1 ▸ List.mem_cons_self _ _
      · have hle : (rest.filter (fun x => !(beqJ d.tag x.tag))).length ≤ n :=
          le_trans (List.length_filter_le _ _) (Nat.le_of_succ_le_succ hl)
        exact List.mem_cons_of_mem _ (List.mem_of_mem_filter (ih _ hle e h2))

/-- The deduplicated list has pairwise-distinct tags. -/
theorem keepFirst_pairwise_aux :
    ∀ (n : Nat) (l : List JTagDef), l.length ≤ n →
      ((keepFirstByTag l).map (fun d => d.tag)).Pairwise
        (fun a b => beqJ a b = false) := by
  intro n
  induction n with
  | zero =>
    intro l hl
    have : l = [] := List.eq_nil_of_length_eq_zero (Nat.le_zero.mp hl)
    subst this
    simp [keepFirstByTag]
  | succ n ih =>
    intro l hl
    cases l with
    | nil => simp [keepFirstByTag]
    | cons d rest =>
      rw [keepFirstByTag]
      have hle : (rest.filter (fun x => !(beqJ d.tag x.tag))).length ≤ n :=
        le_trans (List.length_filter_le _ _) (Nat.le_of_succ_le_succ hl)
      rw [List.map_cons]
      apply List.Pairwise.cons
      · intro b hb
        obtain ⟨e, he, rfl⟩ := List.mem_map.mp hb
        have hm : e ∈ rest.filter (fun x => !(beqJ d.tag x.tag)) :=
          keepFirst_subset_aux _ _ le_rfl e he
        have := List.of_mem_filter hm
        simpa using this
      · exact ih _ hle

/-- Characterization of the App.tsx extraction on an array root. -/
theorem extract_arr_eq (items : List JVal) :
    AppTsx.extract (.jarr items)
      = if itemsThrow items then .runtime
        else if (keepFirstByTag (pureElig (allPoints items))).isEmpty then .noTags
        else .ok (keepFirstByTag (pureElig (allPoints items))) := by
  simp only [AppTsx.extract]
  rw [foldItems_spec]
  by_cases ht : itemsThrow items
  · simp [ht]
  · have ht' : itemsThrow items = false := by simpa using ht
    simp only [ht', if_false]
    have hz : (([] : List JTagDef), ([] : List JVal))
        = (([] : List JTagDef), tagsOf ([] : List JTagDef)) := rfl
    rw [hz, pureFold_addAll, addAllNew_keepFirst]
    have hfil : (pureElig (allPoints items)).filter
          (fun e => !(seenHas (tagsOf ([] : List JTagDef)) e.tag))
        = pureElig (allPoints items) := by
      apply List.filter_eq_self.mpr
      intro e _
      rfl
    rw [hfil]
    rfl

/-- Characterization of the App.tsx extraction on an object root carrying
a `short_point` array. -/
theorem extract_obj_eq (fs : List (String × JVal)) (pts : List JVal)
    (hsp : lookupF fs "short_point" = some (.jarr pts)) :
    AppTsx.extract (.jobj fs)
      = if pts.any isNullJ then .runtime
        else if (keepFirstByTag (pureElig pts)).isEmpty then .noTags
        else .ok (keepFirstByTag (pureElig pts)) := by
  simp only [AppTsx.extract, hsp]
  rw [processShortPoints_spec]
  by_cases hp : pts.any isNullJ
  · simp [hp]
  · have hp' : pts.any isNullJ = false := by simpa using hp
    simp only [hp', if_false]
    have hz : (([] : List JTagDef), ([] : List JVal))
        = (([] : List JTagDef), tagsOf ([] : List JTagDef)) := rfl
    rw [hz, pureFold_addAll, addAllNew_keepFirst]
    have hfil : (pureElig pts).filter
          (fun e => !(seenHas (tagsOf ([] : List JTagDef)) e.tag))
        = pureElig pts := by
      apply List.filter_eq_self.mpr
      intro e _
      rfl
    rw [hfil]
    rfl

/-- Claim C5: whenever extraction succeeds, the output is the
first-occurrence deduplication of the eligible candidates: each distinct
tag exactly once, in first-seen traversal order, carrying the first
occurrence's title1/title2/content (with empty-string defaults applied per
occurrence), and later occurrences never overwrite it.  The primitivity
hypothesis pins the domain on which the structural seen-set model
coincides with the JS `Set`. -/
theorem c5_first_wins (data : JVal) (defs : List JTagDef)
    (h : AppTsx.extract data = .ok defs)
    (hprim : ∀ e ∈ (eligibleOf data).getD [], primJ e.tag = true) :
    ∃ eds, eligibleOf data = some eds
      ∧ defs = keepFirstByTag eds
      ∧ defs ≠ []
      ∧ (defs.map (fun d => d.tag)).Pairwise (fun a b => beqJ a b = false) := by
  clear hprim
  cases data with
  | jarr items =>
    rw [extract_arr_eq] at h
    by_cases ht : itemsThrow items
    · rw [if_pos ht] at h
      exact TagOutcome.noConfusion h
    · have ht' : itemsThrow items = false := by simpa using ht
      rw [if_neg (by simp [ht'])] at h
      by_cases he : (keepFirstByTag (pureElig (allPoints items))).isEmpty
      · rw [if_pos he] at h
        exact TagOutcome.noConfusion h
      · have he' : (keepFirstByTag (pureElig (allPoints items))).isEmpty = false := by
          simpa using he
        rw [if_neg (by simp [he'])] at h
        injection h with h1
        refine ⟨pureElig (allPoints items), ?_, h1.symm, ?_, ?_⟩
        · simp [eligibleOf, ht']
        · rw [← h1]
          exact List.isEmpty_eq_false.mp he'
        · rw [← h1]
          exact keepFirst_pairwise_aux _ _ le_rfl
  | jobj fs =>
    cases hsp : lookupF fs "short_point" with
    | none =>
      simp only [AppTsx.extract, hsp] at h
      exact TagOutcome.noConfusion h
    | some v =>
      cases v with
      | jarr pts =>
        rw [extract_obj_eq fs pts hsp] at h
        by_cases hp : pts.any isNullJ
        · rw [if_pos hp] at h
          exact TagOutcome.noConfusion h
        · have hp' : pts.any isNullJ = false := by simpa using hp
          rw [if_neg (by simp [hp'])] at h
          by_cases he : (keepFirstByTag (pureElig pts)).isEmpty
          · rw [if_pos he] at h
            exact TagOutcome.noConfusion h
          · have he' : (keepFirstByTag (pureElig pts)).isEmpty = false := by
              simpa using he
            rw [if_neg (by simp [he'])] at h
            injection h with h1
            refine ⟨pureElig pts, ?_, h1.symm, ?_, ?_⟩
            · simp [eligibleOf, hsp, hp']
            · rw [← h1]
              exact List.isEmpty_eq_false.mp he'
            · rw [← h1]
              exact keepFirst_pairwise_aux _ _ le_rfl
      | jnull =>
        simp only [AppTsx.extract, hsp] at h
        exact TagOutcome.noConfusion h
      | jbool b =>
        simp only [AppTsx.extract, hsp] at h
        exact TagOutcome.noConfusion h
      | jnum l =>
        simp only [AppTsx.extract, hsp] at h
        exact TagOutcome.noConfusion h
      | jstr t =>
        simp only [AppTsx.extract, hsp] at h
        exact TagOutcome.noConfusion h
      | jobj gs =>
        simp only [AppTsx.extract, hsp] at h
        exact TagOutcome.noConfusion h
  | jnull => exact TagOutcome.noConfusion h
  | jbool b => exact TagOutcome.noConfusion h
  | jnum l => exact TagOutcome.noConfusion h
  | jstr t => exact TagOutcome.noConfusion h

/-- Witness for `c5_first_wins` at `c5Data`, whose tag "A" occurs in two
`short_point` arrays: the first occurrence's title survives. -/
theorem c5_first_wins_witness :
    AppTsx.extract c5Data
      = .ok [⟨.jstr "A", .jstr "X", .jstr "", .jstr ""⟩,
             ⟨.jstr "B", .jstr "", .jstr "", .jstr ""⟩]
    ∧ ∃ eds, eligibleOf c5Data = some eds
        ∧ [(⟨.jstr "A", .jstr "X", .jstr "", .jstr ""⟩ : JTagDef),
           ⟨.jstr "B", .jstr "", .jstr "", .jstr ""⟩] = keepFirstByTag eds
        ∧ [(⟨.jstr "A", .jstr "X", .jstr "", .jstr ""⟩ : JTagDef),
           ⟨.jstr "B", .jstr "", .jstr "", .jstr ""⟩] ≠ []
        ∧ (([(⟨.jstr "A", .jstr "X", .jstr "", .jstr ""⟩ : JTagDef),
             ⟨.jstr "B", .jstr "", .jstr "", .jstr ""⟩]).map
              (fun d => d.tag)).Pairwise (fun a b => beqJ a b = false) :=
  ⟨rfl, c5_first_wins c5Data _ rfl (by decide)⟩

-- Claim C7: helper lemmas

/-- Any per-image predicate holding for freshly created images and
preserved by the tag push is an invariant of the flat-import fold. -/
theorem flatImport_pred (P : ImageItem → Prop)
    (hnew : ∀ row url ctr, P (mkFlatImg row url ctr))
    (hupd : ∀ img tn, P img → P (pushTag tn img)) :
    ∀ (rows : List FlatRecord) (st : FlatState),
      (∀ x ∈ st.imgs, P x.2) →
      ∀ x ∈ (rows.foldl flatStep st).imgs, P x.2 := by
  intro rows
  induction rows with
  | nil => intro st hst; exact hst
  | cons row rest ih =>
    intro st hst
    rw [List.foldl_cons]
    apply ih
    unfold flatStep
    by_cases hu : jsTruthyS row.image_url = true
    · rw [if_pos hu]
      have hst1 : ∀ x ∈ (flatNewImg st row (jsOrS row.image_url "")).imgs, P x.2 := by
        unfold flatNewImg
        by_cases hh : assocHas st.imgs (jsOrS row.image_url "") = true
        · rw [if_pos hh]; exact hst
        · rw [if_neg hh]
          intro x hx
          simp only [List.mem_append, List.mem_singleton] at hx
          rcases hx with hx | hx
          · exact hst x hx
          · subst hx; exact hnew _ _ _
      cases htn : jsOrOpt row.tag_name row.tag_name_alt with
      | none => exact hst1
      | some tn =>
        show ∀ x ∈ (flatTagUpd (flatNewImg st row (jsOrS row.image_url ""))
            row (jsOrS row.image_url "") tn).imgs, P x.2
        unfold flatTagUpd
        by_cases hb : trimS tn = ""
        · rw [if_pos hb]; exact hst1
        · rw [if_neg hb]
          intro x hx
          simp only [assocUpd, List.mem_map] at hx
          obtain ⟨y, hy, rfl⟩ := hx
          by_cases hk : y.1 = jsOrS row.image_url ""
          · rw [if_pos hk]
            exact hupd _ _ (hst1 y hy)
          · rw [if_neg hk]
            exact hst1 y hy
    · rw [if_neg hu]; exact hst

/-- The tag push preserves duplicate-freeness. -/
theorem pushTag_nodup (tn : String) (img : ImageItem)
    (h : img.tags.Nodup) : (pushTag tn img).tags.Nodup := by
  unfold pushTag
  by_cases hm : tn ∈ img.tags
  · rw [if_pos hm]; exact h
  · rw [if_neg hm]
    simp only
    rw [List.nodup_append]
    refine ⟨h, List.nodup_singleton _, ?_⟩
    intro a ha hb
    exact hm (by
      simp only [List.mem_singleton] at hb
      exact hb ▸ ha)

-- Claim C7

/-- Claim C7 (amended): spreadsheet ingestion (tags start empty), the
flat-format import (distinctness-checked push), and `toggleTag` all keep
every image's tag list duplicate-free; the legacy-format import copies the
embedded tag list verbatim and does not. -/
theorem c7_no_dup_tags :
    (∀ (rows : List Row) (items : List ImageItem),
        handleExcelUpload rows = .ok items →
        ∀ img ∈ items, img.tags = [] ∧ img.tags.Nodup)
    ∧ (∀ (rows : List FlatRecord) (ctr0 : Nat),
        ∀ img ∈ (flatImport rows ctr0).1, img.tags.Nodup)
    ∧ (∀ (images : List ImageItem) (imageId tag : String),
        (∀ i ∈ images, i.tags.Nodup) →
        ∀ i ∈ handleToggleTag imageId tag images, i.tags.Nodup) := by
  refine ⟨?_, ?_, ?_⟩
  · intro rows items h img hmem
    unfold handleExcelUpload at h
    cases rows with
    | nil => exact Except.noConfusion h
    | cons firstRow rest =>
      simp only at h
      split at h
      · exact Except.noConfusion h
      · split at h
        · exact Except.noConfusion h
        · rename_i ek hek
          split at h
          · exact Except.noConfusion h
          · injection h with h1
            subst h1
            simp only [List.mem_map] at hmem
            obtain ⟨p, hp, rfl⟩ := hmem
            exact ⟨rfl, List.nodup_nil⟩
  · intro rows ctr0 img hmem
    unfold flatImport at hmem
    simp only [List.mem_map] at hmem
    obtain ⟨x, hx, rfl⟩ := hmem
    exact flatImport_pred (fun i => i.tags.Nodup)
      (fun row url ctr => List.nodup_nil)
      (fun i tn hi => pushTag_nodup tn i hi)
      rows { imgs := [], defs := [], ctr := ctr0 } (by intro x hx; cases hx)
      x hx
  · intro images imageId tag hall i hi
    unfold handleToggleTag at hi
    simp only [List.mem_map] at hi
    obtain ⟨img, hmem, rfl⟩ := hi
    by_cases hid : img.id = imageId
    · rw [if_pos hid]
      by_cases htag : tag ∈ img.tags
      · rw [if_pos htag]
        exact (hall img hmem).filter _
      · rw [if_neg htag]
        simp only
        rw [List.nodup_append]
        refine ⟨hall img hmem, List.nodup_singleton _, ?_⟩
        intro a ha hb
        exact htag (by
          simp only [List.mem_singleton] at hb
          exact hb ▸ ha)
    · rw [if_neg hid]
      exact hall img hmem

/-- Witness for `c7_no_dup_tags` at concrete inputs on all three
paths. -/
theorem c7_no_dup_tags_witness :
    (∀ img ∈ (flatImport [flatQueryRow] 0).1, img.tags.Nodup)
    ∧ ((handleToggleTag "i1" "C" [imgW1]).get ⟨0, by decide⟩).tags.Nodup := by
  constructor
  · exact c7_no_dup_tags.2.1 [flatQueryRow] 0
  · exact c7_no_dup_tags.2.2 [imgW1] "i1" "C" (by decide) _
      (List.get_mem _ _ _)

/-- Claim C7 counterexample: the legacy import of a record whose embedded
tag array is ["A", "A"] yields an image whose tag list has a
duplicate. -/
theorem c7_legacy_dup_counterexample :
    (legacyImport [legacyDupRow]).1.map (fun i => i.tags) = [["A", "A"]]
    ∧ ¬ (["A", "A"] : List String).Nodup := by
  exact ⟨by rfl, by decide⟩

-- Claim C9

/-- Claim C9 (amended): the spreadsheet path derives `filename` as the last
path segment of the (stored, trimmed) url with the query string stripped,
defaulting to a synthetic image-\<idx\>.jpg name when that is empty; the
flat and legacy import paths use the raw last segment with the query
string retained, defaulting to "unknown". -/
theorem c9_filename :
    (∀ (rows : List Row) (items : List ImageItem),
        handleExcelUpload rows = .ok items →
        ∀ img ∈ items,
          (stripQuery (lastSeg img.url) ≠ "" →
              img.filename = stripQuery (lastSeg img.url))
          ∧ (stripQuery (lastSeg img.url) = "" →
              ∃ n : Nat, img.filename = "image-" ++ toString n ++ ".jpg"))
    ∧ (∀ (rows : List FlatRecord) (ctr0 : Nat),
        ∀ img ∈ (flatImport rows ctr0).1,
          img.filename = jsOrS (some (lastSeg img.url)) "unknown")
    ∧ (∀ rows : List LegacyRecord,
        ∀ img ∈ (legacyImport rows).1,
          img.filename = jsOrS (some (lastSeg img.url)) "unknown") := by
  refine ⟨?_, ?_, ?_⟩
  · intro rows items h img hmem
    unfold handleExcelUpload at h
    cases rows with
    | nil => exact Except.noConfusion h
    | cons firstRow rest =>
      simp only at h
      split at h
      · exact Except.noConfusion h
      · split at h
        · exact Except.noConfusion h
        · split at h
          · exact Except.noConfusion h
          · injection h with h1
            subst h1
            simp only [List.mem_map] at hmem
            obtain ⟨p, hp, rfl⟩ := hmem
            simp only
            constructor
            · intro hne
              rw [jsOrS_some_ne hne]
            · intro he
              exact ⟨p.1, by rw [he]; rfl⟩
  · intro rows ctr0 img hmem
    unfold flatImport at hmem
    simp only [List.mem_map] at hmem
    obtain ⟨x, hx, rfl⟩ := hmem
    exact flatImport_pred
      (fun i => i.filename = jsOrS (some (lastSeg i.url)) "unknown")
      (fun row url ctr => rfl)
      (fun i tn hi => by
        unfold pushTag
        by_cases hm : tn ∈ i.tags
        · rw [if_pos hm]; exact hi
        · rw [if_neg hm]; exact hi)
      rows { imgs := [], defs := [], ctr := ctr0 } (by intro x hx; cases hx)
      x hx
  · intro rows img hmem
    unfold legacyImport legacyImages at hmem
    obtain ⟨hmem, -⟩ := List.mem_filter.mp hmem
    simp only [List.mem_map] at hmem
    obtain ⟨p, hp, rfl⟩ := hmem
    rfl

/-- Witness for `c9_filename`: the flat import of a query-string URL keeps
the query string in the filename. -/
theorem c9_filename_witness :
    ((flatImport [flatQueryRow] 0).1.get ⟨0, by decide⟩).filename
      = jsOrS (some (lastSeg ((flatImport [flatQueryRow] 0).1.get
          ⟨0, by decide⟩).url)) "unknown" :=
  c9_filename.2.1 [flatQueryRow] 0 _ (List.get_mem _ _ _)

/-- Claim C9 counterexample: the flat import path does not strip the query
string, so the reconstructed filename "a.jpg?x=1" differs from the claimed
last-segment-query-stripped value "a.jpg". -/
theorem c9_query_counterexample :
    (flatImport [flatQueryRow] 0).1.map (fun i => (i.filename, i.url))
      = [("a.jpg?x=1", "http://h/a.jpg?x=1")]
    ∧ specFilename "http://h/a.jpg?x=1" = "a.jpg"
    ∧ ("a.jpg?x=1" : String) ≠ "a.jpg" := by
  refine ⟨?_, ?_, ?_⟩
  · exact rfl
  · exact rfl
  · decide

-- Claim C8

/-- Claim C8 (amended): column inference scans the first row's column
names in header order and takes the first column matching any of the
role's patterns — the order of the pattern list itself confers no
priority, so an earlier header matching only a substring pattern beats a
later header matching an anchored pattern.  The url fallback (first column
whose first-row value starts with http) and the concrete example
resolution hold as claimed. -/
theorem c8_column_inference :
    (∀ (keys : List String) (pats : List Pat) (k : String),
        findKey keys pats = some k ↔
          (pats.any (fun p => patMatch p k)) = true
          ∧ ∃ pre suf, keys = pre ++ k :: suf
              ∧ ∀ k2 ∈ pre, (pats.any (fun p => patMatch p k2)) = false)
    ∧ (∀ (keys : List String) (firstRow : Row),
        findKey keys urlPats = none →
        effectiveUrlKey keys firstRow
          = keys.find? (fun k => startsWithS (rGet firstRow k) "http"))
    ∧ findKey ["Image Link", "HotelID", "Name"] urlPats = some "Image Link"
    ∧ findKey ["Image Link", "HotelID", "Name"] hotelIdPats = some "HotelID"
    ∧ findKey ["Image Link", "HotelID", "Name"] hotelNamePats = some "Name"
    ∧ handleExcelUpload rowsExample
      = .ok [{ id := "img-xlsx-0", url := "http://h/a.jpg",
               filename := "a.jpg", tags := [], hotelId := some "7",
               hotelName := some "H", originalImageId := none }] := by
  refine ⟨?_, ?_, ?_, ?_, ?_, ?_⟩
  · intro keys pats k
    unfold findKey
    rw [List.find?_eq_some]
    constructor
    · rintro ⟨h1, pre, suf, h2, h3⟩
      exact ⟨h1, pre, suf, h2, fun k2 hk2 => by
        have := h3 k2 hk2
        simpa using this⟩
    · rintro ⟨h1, pre, suf, h2, h3⟩
      exact ⟨h1, pre, suf, h2, fun k2 hk2 => by
        have := h3 k2 hk2
        simpa using this⟩
  · intro keys firstRow h
    unfold effectiveUrlKey
    rw [h]
  · exact rfl
  · exact rfl
  · exact rfl
  · exact rfl

/-- Witness for `c8_column_inference`: both directions of the
characterization at concrete headers, and the fallback at a concrete
row. -/
theorem c8_column_inference_witness :
    findKey ["hotellink", "url"] urlPats = some "hotellink"
    ∧ effectiveUrlKey ["colA"] [("colA", "http://z")]
      = ["colA"].find? (fun k =>
          startsWithS (rGet [("colA", "http://z")] k) "http") := by
  constructor
  · exact (c8_column_inference.1 ["hotellink", "url"] urlPats
      "hotellink").mpr ⟨by decide, [], ["url"], rfl, by intro k2 hk2; cases hk2⟩
  · exact c8_column_inference.2.1 ["colA"] [("colA", "http://z")] rfl

/-- Claim C8 counterexample: with headers ["hotellink", "url"], the code
resolves the url role from "hotellink" (first header matching any
pattern), while exact-before-substring pattern priority would resolve it
from "url"; the produced item's url is the hotellink cell "x". -/
theorem c8_priority_counterexample :
    findKey ["hotellink", "url"] urlPats = some "hotellink"
    ∧ specPriorityFindKey ["hotellink", "url"] urlPats = some "url"
    ∧ ("hotellink" : String) ≠ "url"
    ∧ handleExcelUpload rowsPriority
      = .ok [{ id := "img-xlsx-0", url := "x", filename := "x",
               tags := [], hotelId := none, hotelName := none,
               originalImageId := none }] := by
  refine ⟨?_, ?_, ?_, ?_⟩
  · exact rfl
  · exact rfl
  · decide
  · exact rfl

-- Claim C2

/-- Claim C2 (amended): the part_000 flat serializer emits exactly one
blank-tag record per untagged image and one record per tag otherwise,
title1/title2 coming from the first matching entry of the tag-definition
list (empty when none matches); every record carries image_url, hotel_id
(empty string when the image has none), and an image_id equal to
originalImageId when that is present and non-empty, the internal id
otherwise; no record carries a content or hotel_name key. -/
theorem c2_flat_serializer (imgs : List ImageItem) (ds : List TagDefinition) :
    (Part0.handleExport imgs ds).length
      = (imgs.map (fun i => max i.tags.length 1)).sum
    ∧ (∀ img : ImageItem, img.tags = [] →
        Part0.exportChunk ds img
          = [{ hotel_id := some (jsOrS img.hotelId ""), title1 := some "",
               title2 := some "", tag_name := some "",
               image_id := some (jsOrS img.originalImageId img.id),
               image_url := some img.url }])
    ∧ (∀ img : ImageItem,
        (Part0.exportChunk ds img).length = max img.tags.length 1)
    ∧ (∀ r ∈ Part0.handleExport imgs ds,
        r.content = none ∧ r.hotel_name = none
        ∧ ∃ img ∈ imgs,
            r.image_url = some img.url
            ∧ r.hotel_id = some (jsOrS img.hotelId "")
            ∧ (∀ v, img.originalImageId = some v → v ≠ "" →
                r.image_id = some v)
            ∧ (img.originalImageId = none → r.image_id = some img.id)
            ∧ ((img.tags = [] ∧ r.tag_name = some "" ∧ r.title1 = some ""
                  ∧ r.title2 = some "")
               ∨ (∃ t ∈ img.tags, r.tag_name = some t
                    ∧ r.title1 = some (jsOrS ((ds.find? (fun d => d.tag = t)).map
                        (fun d => d.title1)) "")
                    ∧ r.title2 = some (jsOrS ((ds.find? (fun d => d.tag = t)).map
                        (fun d => d.title2)) "")))) := by
  have hchunk : ∀ img : ImageItem,
      (Part0.exportChunk ds img).length = max img.tags.length 1 := by
    intro img
    unfold Part0.exportChunk
    by_cases h : img.tags.isEmpty
    · rw [if_pos h]
      have : img.tags = [] := List.isEmpty_iff.mp h
      simp [this]
    · rw [if_neg h]
      have hne : img.tags ≠ [] := by simpa [List.isEmpty_iff] using h
      have hpos : 1 ≤ img.tags.length := by
        cases hx : img.tags with
        | nil => exact absurd hx hne
        | cons a l => simp
      simp [Nat.max_eq_left hpos]
  refine ⟨?_, ?_, hchunk, ?_⟩
  · unfold Part0.handleExport
    rw [List.length_flatten, List.map_map]
    congr 1
    apply List.map_congr_left
    intro img _
    exact hchunk img
  · intro img h
    unfold Part0.exportChunk
    rw [if_pos (List.isEmpty_iff.mpr h)]
  · intro r hr
    unfold Part0.handleExport at hr
    rw [List.mem_flatten] at hr
    obtain ⟨l, hl, hrl⟩ := hr
    rw [List.mem_map] at hl
    obtain ⟨img, himg, rfl⟩ := hl
    refine ?_
    unfold Part0.exportChunk at hrl
    by_cases h : img.tags.isEmpty
    · rw [if_pos h] at hrl
      have htags : img.tags = [] := List.isEmpty_iff.mp h
      rw [List.mem_singleton] at hrl
      subst hrl
      refine ⟨rfl, rfl, img, himg, rfl, rfl, ?_, ?_, Or.inl ⟨htags, rfl, rfl, rfl⟩⟩
      · intro v hv hvne
        simp only
        rw [hv, jsOrS_some_ne hvne]
      · intro hv
        simp only
        rw [hv]
        rfl
    · rw [if_neg h] at hrl
      rw [List.mem_map] at hrl
      obtain ⟨t, ht, rfl⟩ := hrl
      refine ⟨rfl, rfl, img, himg, rfl, rfl, ?_, ?_, Or.inr ⟨t, ht, rfl, rfl, rfl⟩⟩
      · intro v hv hvne
        simp only
        rw [hv, jsOrS_some_ne hvne]
      · intro hv
        simp only
        rw [hv]
        rfl

/-- Witness for `c2_flat_serializer` at a concrete session: the record
count, the blank record of the untagged image, and the field block of the
first emitted record. -/
theorem c2_flat_serializer_witness :
    (Part0.handleExport [imgW1, imgW2] defsW).length = 3
    ∧ Part0.exportChunk defsW imgW2
      = [{ hotel_id := some "7", title1 := some "", title2 := some "",
           tag_name := some "", image_id := some "i2",
           image_url := some "http://h/b.jpg" }]
    ∧ ((Part0.handleExport [imgW1, imgW2] defsW).get ⟨0, by decide⟩).content
      = none := by
  refine ⟨?_, ?_, ?_⟩
  · have h := (c2_flat_serializer [imgW1, imgW2] defsW).1
    exact h.trans (by decide)
  · have h := (c2_flat_serializer [imgW1, imgW2] defsW).2.1 imgW2 rfl
    exact h.trans (by rfl)
  · exact ((c2_flat_serializer [imgW1, imgW2] defsW).2.2.2 _
      (List.get_mem _ _ _)).1

/-- Claim C2 counterexample: the part_000 serializer's records carry no
content key at all, even when the tag's definition has a non-empty
content — so the emitted content cannot come from the definition list as
the claim states. -/
theorem c2_content_counterexample :
    (Part0.handleExport [imgW1] defsW).map (fun r => r.content) = [none, none]
    ∧ defsW.find? (fun d => d.tag = "A")
      = some { tag := "A", title1 := "T1A", title2 := "T2A",
               content := some "CA" }
    ∧ (some "CA" : Option String) ≠ none := by
  refine ⟨?_, ?_, ?_⟩
  · exact rfl
  · exact rfl
  · decide

-- Claim C1

/-- Claim C1: serializing a session holding one image with two distinct
non-blank tags and one untagged image (distinct non-empty URLs) with the
App.tsx flat exporter, then deserializing through the flat-format import,
reconstructs exactly two images — the first carrying both tags in their
original order, the second carrying none — and recovers both tags as
definitions, in order, with the title1/title2 values that were
exported. -/
theorem c1_round_trip
    (u1 u2 t1 t2 id1 id2 fn1 fn2 : String)
    (hid1 hname1 oid1 hid2 hname2 oid2 : Option String)
    (ds : List TagDefinition) (ctr0 : Nat)
    (hu1 : u1 ≠ "") (hu2 : u2 ≠ "") (huu : u1 ≠ u2)
    (ht1 : trimS t1 ≠ "") (ht2 : trimS t2 ≠ "") (htt : t1 ≠ t2) :
    (flatImport (AppTsx.handleExport
        [{ id := id1, url := u1, filename := fn1, tags := [t1, t2],
           hotelId := hid1, hotelName := hname1, originalImageId := oid1 },
         { id := id2, url := u2, filename := fn2, tags := [],
           hotelId := hid2, hotelName := hname2, originalImageId := oid2 }]
        ds) ctr0).1.map (fun i => (i.url, i.tags))
      = [(u1, [t1, t2]), (u2, [])]
    ∧ (flatImport (AppTsx.handleExport
        [{ id := id1, url := u1, filename := fn1, tags := [t1, t2],
           hotelId := hid1, hotelName := hname1, originalImageId := oid1 },
         { id := id2, url := u2, filename := fn2, tags := [],
           hotelId := hid2, hotelName := hname2, originalImageId := oid2 }]
        ds) ctr0).2
      = [{ tag := t1, title1 := AppTsx.exportedTitle1 ds t1,
           title2 := AppTsx.exportedTitle2 ds t1,
           content := some (AppTsx.exportedContent ds t1) },
         { tag := t2, title1 := AppTsx.exportedTitle1 ds t2,
           title2 := AppTsx.exportedTitle2 ds t2,
           content := some (AppTsx.exportedContent ds t2) }] := by
  have ht1e : t1 ≠ "" := ne_empty_of_trim_ne ht1
  have ht2e : t2 ≠ "" := ne_empty_of_trim_ne ht2
  have huu2 : u2 ≠ u1 := Ne.symm huu
  have htt2 : t2 ≠ t1 := Ne.symm htt
  constructor <;>
    simp [flatImport, AppTsx.handleExport, AppTsx.exportChunk, flatStep,
      flatNewImg, flatTagUpd, mkFlatImg, pushTag, assocHas, assocUpd,
      jsTruthyS, jsOrOpt, jsOrS_some_empty, jsOrS_some_ne hu1,
      jsOrS_some_ne hu2, List.foldl_cons, List.foldl_nil,
      hu1, hu2, huu, huu2, ht1, ht2, htt, htt2, ht1e, ht2e]

/-- Witness for `c1_round_trip` at a concrete session: two images, tags
"A" and "B" on the first, none on the second. -/
theorem c1_round_trip_witness :
    (flatImport (AppTsx.handleExport [imgW1, imgW2] defsW) 0).1.map
        (fun i => (i.url, i.tags))
      = [("http://h/a.jpg", ["A", "B"]), ("http://h/b.jpg", [])]
    ∧ (flatImport (AppTsx.handleExport [imgW1, imgW2] defsW) 0).2
      = [{ tag := "A", title1 := AppTsx.exportedTitle1 defsW "A",
           title2 := AppTsx.exportedTitle2 defsW "A",
           content := some (AppTsx.exportedContent defsW "A") },
         { tag := "B", title1 := AppTsx.exportedTitle1 defsW "B",
           title2 := AppTsx.exportedTitle2 defsW "B",
           content := some (AppTsx.exportedContent defsW "B") }] := by
  exact c1_round_trip "http://h/a.jpg" "http://h/b.jpg" "A" "B" "i1" "i2"
    "a.jpg" "b.jpg" (some "7") (some "H") (some "900") (some "7") (some "H")
    none defsW 0 (by decide) (by decide) (by decide) (by decide) (by decide)
    (by decide)
